import Mathlib

/-!
Verification of the emoji data-build pipeline
(src/BetterEmojiPicker/Scripts/build_emoji_data.py).

Shallow embedding conventions:
* A Python string used as a glyph is a sequence of Unicode code points;
  we model glyphs as `List Nat` (Python allows lone surrogates, which the
  Lean `Char` type excludes, so bare code points are the faithful model).
* Textual fields (names, keywords, categories) are Lean `String`s;
  `str.lower()` is modelled as per-character ASCII lowercasing
  (the ASCII fragment is all the pipeline relies on).
* `int(s, 16)` is modelled by `pyIntHexL`, covering the CPython grammar
  for base-16 parsing: optional surrounding whitespace, optional sign,
  optional `0x`/`0X` base marker, hex digits with single underscores
  between digits.
* `chr(v)` is modelled by `pyChr`: defined exactly for `0 ≤ v ≤ 0x10FFFF`
  (Python accepts surrogates there), `none` models the
  `ValueError`/`OverflowError` that the script catches.
* A JSON record is a structure of `Option` fields; `dict.get(k, d)` is
  `Option.getD`.  The emojilib dictionary is an association list with
  distinct keys, looked up by first match.
* The `try/except` around decoding is the `Option` result of
  `hex_to_emoji`; the `except: continue` branch is the `none` case of the
  match in `processEntry`.
-/

/-- Python `needle.isPrefixOf hay` style check on char lists:
`leadsWith n h` is true when `n` is an initial segment of `h`. -/
def leadsWith : List Char → List Char → Bool
  | [], _ => true
  | _ :: _, [] => false
  | a :: as, b :: bs => a == b && leadsWith as bs

/-- Python substring test `needle in hay` on char lists. -/
def listHasSub (needle : List Char) : List Char → Bool
  | [] => needle.isEmpty
  | c :: t => leadsWith needle (c :: t) || listHasSub needle t

/-- Python `s.startswith(pre)`. -/
def pyStartsWith (s pre : String) : Bool := leadsWith pre.data s.data

/-- Python `s.lower()`, restricted to the ASCII fragment: characters
`A`-`Z` are shifted to `a`-`z`, everything else is unchanged
(`Char.toLower` implements exactly this shift). -/
def pyLower (s : String) : String := ⟨s.data.map Char.toLower⟩

/-- Python `s.replace("_", " ")` (a single-character pattern, hence a
per-character map). -/
def underscoreToSpace (s : String) : String :=
  ⟨s.data.map (fun c => if c = '_' then ' ' else c)⟩

/-- Python `s.split("-")`: splits at every dash, keeping empty pieces;
the empty string yields `[""]`. -/
def splitDash : List Char → List (List Char)
  | [] => [[]]
  | c :: rest =>
    if c = '-' then [] :: splitDash rest
    else
      match splitDash rest with
      | s :: ss => (c :: s) :: ss
      | [] => [[c]]

/-- Hex-digit test used by the `int(s, 16)` model. -/
def isHexDig (c : Char) : Bool :=
  ('0' ≤ c && c ≤ '9') || ('a' ≤ c && c ≤ 'f') || ('A' ≤ c && c ≤ 'F')

/-- Value of a hex digit. -/
def hexDigVal (c : Char) : Nat :=
  if '0' ≤ c && c ≤ '9' then c.toNat - '0'.toNat
  else if 'a' ≤ c && c ≤ 'f' then c.toNat - 'a'.toNat + 10
  else c.toNat - 'A'.toNat + 10

/-- Digit-run parser for the `int(s, 16)` model.  The flag records
whether the previous character was an underscore: underscores must be
single and must sit between two digits (CPython rule). -/
def parseDigitsGo : Bool → List Char → Nat → Option Nat
  | pend, [], acc => if pend then none else some acc
  | pend, c :: rest, acc =>
    if c = '_' then
      if pend then none else parseDigitsGo true rest acc
    else if isHexDig c then parseDigitsGo false rest (16 * acc + hexDigVal c)
    else none

/-- A nonempty run of hex digits (with legal underscores), starting with
a digit. -/
def parseHexNum : List Char → Option Nat
  | [] => none
  | c :: rest => if isHexDig c then parseDigitsGo false rest (hexDigVal c) else none

/-- Body of the `int(s, 16)` model after the optional sign: an optional
`0x`/`0X` marker (optionally followed by one underscore), then digits. -/
def parseHexBody (l : List Char) : Option Nat :=
  match l with
  | c0 :: c :: rest =>
    if c0 = '0' ∧ (c = 'x' ∨ c = 'X') then
      match rest with
      | '_' :: rest2 => parseHexNum rest2
      | _ => parseHexNum rest
    else parseHexNum l
  | _ => parseHexNum l

/-- Python `str.strip()` whitespace characters (ASCII fragment). -/
def isPySpace (c : Char) : Bool :=
  c = ' ' || c = '\t' || c = '\n' || c = '\x0b' || c = '\x0c' || c = '\r'

/-- Strip leading and trailing whitespace. -/
def stripPySpaces (l : List Char) : List Char :=
  ((l.dropWhile isPySpace).reverse.dropWhile isPySpace).reverse

/-- The optional sign in front of the hex body. -/
def parseSignedHex : List Char → Option Int
  | c :: rest =>
    if c = '+' then (parseHexBody rest).map (fun n => (n : Int))
    else if c = '-' then (parseHexBody rest).map (fun n => -(n : Int))
    else (parseHexBody (c :: rest)).map (fun n => (n : Int))
  | [] => (parseHexBody []).map (fun n => (n : Int))

/-- Model of Python `int(s, 16)` on a char list: `none` is the
`ValueError` raised on a malformed literal. -/
def pyIntHexL (l : List Char) : Option Int :=
  parseSignedHex (stripPySpaces l)

/-- Model of Python `chr(v)`: defined for code points `0 ≤ v ≤ 0x10FFFF`
(surrogates included, as in Python); `none` models the exception the
script catches. -/
def pyChr (v : Int) : Option Nat :=
  if 0 ≤ v ∧ v ≤ 0x10FFFF then some v.toNat else none

/-- The list comprehension `[chr(int(cp, 16)) for cp in codepoints]`
followed by `"".join(chars)`: decode each segment to one code point,
left to right, failing the whole record at the first bad segment. -/
def decodeSegs : List (List Char) → Option (List Nat)
  | [] => some []
  | seg :: rest =>
    match pyIntHexL seg with
    | none => none
    | some v =>
      match pyChr v with
      | none => none
      | some c => (decodeSegs rest).map (fun cs => c :: cs)

/-- `hex_to_emoji` (build_emoji_data.py lines 44-56): split the unified
string on dashes and decode each hex segment to a code point. -/
def hex_to_emoji (unified : String) : Option (List Nat) :=
  decodeSegs (splitDash unified.data)

/-- One record of the primary source (emoji-data JSON).  Fields are
`Option`s because the script reads each with `entry.get(key, default)`. -/
structure Entry where
  unified : Option String
  name : Option String
  short_names : Option (List String)
  category : Option String
  sort_order : Option Int
  has_img_apple : Option Bool
deriving DecidableEq

/-- One output record (the dict built at lines 145-151). -/
structure EmojiEntry where
  emoji : List Nat
  name : String
  keywords : List String
  category : String
  sortOrder : Int
deriving DecidableEq

/-- The emojilib dictionary: glyph to keyword list. -/
abbrev EmojiLib := List (List Nat × List String)

/-- Python `emojilib_data.get(emoji_char, [])` (keys of a dict are
distinct; lookup takes the first match). -/
def libGet (lib : EmojiLib) (g : List Nat) : List String :=
  match lib.find? (fun p => p.1 == g) with
  | some p => p.2
  | none => []

/-- The five uppercase substrings tested at line 104. -/
def skinToneMods : List String := ["1F3FB", "1F3FC", "1F3FD", "1F3FE", "1F3FF"]

/-- Line 104: `any(mod in unified for mod in [...])` - a case-sensitive
substring test on the whole unified string. -/
def skinToneHit (unified : String) : Bool :=
  skinToneMods.any (fun m => listHasSub m.data unified.data)

/-- `kw.lower().replace("_", " ")` (lines 131 and 138). -/
def cleanKw (kw : String) : String := underscoreToSpace (pyLower kw)

/-- Loop body at lines 130-134: append the cleaned short name unless
already seen.  The accumulator is `(all_keywords, seen_keywords)`;
the seen set is modelled as a list queried by membership. -/
def addShortName (acc : List String × List String) (kw : String) :
    List String × List String :=
  let c := cleanKw kw
  if c ∈ acc.2 then acc else (acc.1 ++ [c], c :: acc.2)

/-- Loop body at lines 137-142: append the cleaned emojilib keyword
unless it is already seen or the raw keyword starts with `:` or `;`. -/
def addLibKw (acc : List String × List String) (kw : String) :
    List String × List String :=
  let c := cleanKw kw
  if c ∉ acc.2 ∧ pyStartsWith kw ":" = false ∧ pyStartsWith kw ";" = false
  then (acc.1 ++ [c], c :: acc.2) else acc

/-- Lines 125-142: merge short names with the emojilib keywords
(`emojilib_keywords[1:] if len(emojilib_keywords) > 1 else []`). -/
def build_keywords (short_names : List String) (libKws : List String) :
    List String :=
  let acc0 := short_names.foldl addShortName ([], [])
  let tail := if libKws.length > 1 then libKws.drop 1 else []
  (tail.foldl addLibKw acc0).1

/-- The output dict construction at lines 145-151. -/
def mkEmojiEntry (entry : Entry) (emoji_char : List Nat) (kws : List String) :
    EmojiEntry :=
  ⟨emoji_char, pyLower (entry.name.getD ""), kws,
   entry.category.getD "Other", entry.sort_order.getD 9999⟩

/-- One iteration of the loop at lines 92-152 over the state
`(emojis, seen_emojis)`.  The seen set is a list queried by membership
(insertion position is irrelevant to the set semantics). -/
def processEntry (lib : EmojiLib) (st : List EmojiEntry × List (List Nat))
    (entry : Entry) : List EmojiEntry × List (List Nat) :=
  if entry.has_img_apple.getD false = false then st else
  let unified := entry.unified.getD ""
  if skinToneHit unified then st else
  match hex_to_emoji unified with
  | none => st
  | some emoji_char =>
    if emoji_char ∈ st.2 then st else
    (st.1 ++ [mkEmojiEntry entry emoji_char
        (build_keywords (entry.short_names.getD []) (libGet lib emoji_char))],
     emoji_char :: st.2)

/-- `build_emoji_list` (lines 59-157): fold the loop over the raw data,
starting from empty `emojis` and `seen_emojis`, and return `emojis`. -/
def build_emoji_list (raw_data : List Entry) (emojilib_data : EmojiLib) :
    List EmojiEntry :=
  (raw_data.foldl (processEntry emojilib_data) ([], [])).1

example : build_emoji_list
    [⟨some "1F600", some "GRINNING FACE", some ["grinning"],
      some "Smileys & Emotion", some 1, some true⟩]
    [([0x1F600], ["grinning_face", "happy", "joy"])]
    = [⟨[0x1F600], "grinning face", ["grinning", "happy", "joy"],
        "Smileys & Emotion", 1⟩] := by decide

/-! ## Structural lemmas about one loop iteration -/

/-- The eligibility decision of one loop iteration, read off the source:
apple rendering present, no skin-tone substring, decodable, not yet seen;
returns the decoded glyph when the record passes. -/
def eligGlyph (seen : List (List Nat)) (e : Entry) : Option (List Nat) :=
  if e.has_img_apple.getD false = false then none else
  if skinToneHit (e.unified.getD "") then none else
  match hex_to_emoji (e.unified.getD "") with
  | none => none
  | some g => if g ∈ seen then none else some g

/-- The record built for an eligible entry. -/
def emittedEntry (lib : EmojiLib) (e : Entry) (g : List Nat) : EmojiEntry :=
  mkEmojiEntry e g (build_keywords (e.short_names.getD []) (libGet lib g))

theorem processEntry_eq (lib : EmojiLib) (st : List EmojiEntry × List (List Nat))
    (e : Entry) :
    processEntry lib st e =
      match eligGlyph st.2 e with
      | none => st
      | some g => (st.1 ++ [emittedEntry lib e g], g :: st.2) := by
  unfold processEntry eligGlyph emittedEntry
  by_cases h1 : e.has_img_apple.getD false = false
  · simp [h1]
  · simp only [h1, if_false]
    by_cases h2 : skinToneHit (e.unified.getD "") = true
    · simp [h2]
    · simp only [h2, Bool.false_eq_true, if_false]
      cases hg : hex_to_emoji (e.unified.getD "") with
      | none => simp
      | some g =>
        by_cases h3 : g ∈ st.2
        · simp [h3]
        · simp [h3]

theorem processEntry_skip (lib : EmojiLib) (st : List EmojiEntry × List (List Nat))
    (e : Entry) (h : eligGlyph st.2 e = none) : processEntry lib st e = st := by
  rw [processEntry_eq, h]

theorem processEntry_emit (lib : EmojiLib) (st : List EmojiEntry × List (List Nat))
    (e : Entry) (g : List Nat) (h : eligGlyph st.2 e = some g) :
    processEntry lib st e = (st.1 ++ [emittedEntry lib e g], g :: st.2) := by
  rw [processEntry_eq, h]

/-- An entry whose eligibility fails at every seen set contributes
nothing: inserting it anywhere in the raw data leaves the output
unchanged. -/
theorem build_insert_skip (xs ys : List Entry) (lib : EmojiLib) (e : Entry)
    (h : ∀ seen, eligGlyph seen e = none) :
    build_emoji_list (xs ++ e :: ys) lib = build_emoji_list (xs ++ ys) lib := by
  unfold build_emoji_list
  rw [List.foldl_append, List.foldl_append, List.foldl_cons,
    processEntry_skip lib _ e (h _)]

/-! ## The glyph sequence of the output -/

/-- The subsequence of decoded glyphs of the eligible, not-yet-seen
records, in source order: the reference sequence of the
order-preservation property. -/
def eligibleGlyphs : List (List Nat) → List Entry → List (List Nat)
  | _, [] => []
  | seen, e :: rest =>
    match eligGlyph seen e with
    | some g => g :: eligibleGlyphs (g :: seen) rest
    | none => eligibleGlyphs seen rest

theorem build_fold_glyphs (lib : EmojiLib) :
    ∀ (rest : List Entry) (es : List EmojiEntry) (seen : List (List Nat)),
    ((rest.foldl (processEntry lib) (es, seen)).1).map EmojiEntry.emoji
      = es.map EmojiEntry.emoji ++ eligibleGlyphs seen rest := by
  intro rest
  induction rest with
  | nil => intro es seen; simp [eligibleGlyphs]
  | cons e rest ih =>
    intro es seen
    rw [List.foldl_cons]
    cases hg : eligGlyph seen e with
    | none =>
      rw [processEntry_skip lib (es, seen) e hg]
      simp only [eligibleGlyphs, hg]
      exact ih es seen
    | some g =>
      rw [processEntry_emit lib (es, seen) e g hg]
      simp only [eligibleGlyphs, hg]
      rw [ih (es ++ [emittedEntry lib e g]) (g :: seen)]
      simp [emittedEntry, mkEmojiEntry]

theorem build_glyphs_eq (raw : List Entry) (lib : EmojiLib) :
    (build_emoji_list raw lib).map EmojiEntry.emoji = eligibleGlyphs [] raw := by
  unfold build_emoji_list
  rw [build_fold_glyphs lib raw [] []]
  simp

theorem eligGlyph_some_not_seen (seen : List (List Nat)) (e : Entry)
    (g : List Nat) (h : eligGlyph seen e = some g) : g ∉ seen := by
  unfold eligGlyph at h
  by_cases h1 : e.has_img_apple.getD false = false
  · simp [h1] at h
  · simp only [h1, if_false] at h
    by_cases h2 : skinToneHit (e.unified.getD "") = true
    · simp [h2] at h
    · simp only [h2, Bool.false_eq_true, if_false] at h
      cases hg : hex_to_emoji (e.unified.getD "") with
      | none => rw [hg] at h; exact absurd h (by simp)
      | some g2 =>
        rw [hg] at h
        by_cases h3 : g2 ∈ seen
        · simp [h3] at h
        · simp only [h3, if_false] at h
          cases h; exact h3

theorem eligGlyph_some_decode (seen : List (List Nat)) (e : Entry)
    (g : List Nat) (h : eligGlyph seen e = some g) :
    hex_to_emoji (e.unified.getD "") = some g := by
  unfold eligGlyph at h
  by_cases h1 : e.has_img_apple.getD false = false
  · simp [h1] at h
  · simp only [h1, if_false] at h
    by_cases h2 : skinToneHit (e.unified.getD "") = true
    · simp [h2] at h
    · simp only [h2, Bool.false_eq_true, if_false] at h
      cases hg : hex_to_emoji (e.unified.getD "") with
      | none => rw [hg] at h; exact absurd h (by simp)
      | some g2 =>
        rw [hg] at h
        by_cases h3 : g2 ∈ seen
        · simp [h3] at h
        · simp only [h3, if_false] at h
          cases h; rfl

theorem eligibleGlyphs_nodup :
    ∀ (rest : List Entry) (seen : List (List Nat)),
    (eligibleGlyphs seen rest).Nodup ∧
      ∀ g ∈ eligibleGlyphs seen rest, g ∉ seen := by
  intro rest
  induction rest with
  | nil => intro seen; simp [eligibleGlyphs]
  | cons e rest ih =>
    intro seen
    cases hg : eligGlyph seen e with
    | none =>
      simp only [eligibleGlyphs, hg]
      exact ih seen
    | some g =>
      simp only [eligibleGlyphs, hg]
      obtain ⟨ihn, ihs⟩ := ih (g :: seen)
      refine ⟨List.nodup_cons.mpr ⟨fun hmem => ?_, ihn⟩, ?_⟩
      · exact (ihs g hmem) (List.mem_cons_self g seen)
      · intro x hx
        rcases List.mem_cons.mp hx with hx | hx
        · subst hx; exact eligGlyph_some_not_seen seen e x hg
        · intro hxs
          exact (ihs x hx) (List.mem_cons_of_mem g hxs)

/-! ## Decoded glyphs are nonempty -/

theorem decodeSegs_length (segs : List (List Char)) (g : List Nat)
    (h : decodeSegs segs = some g) : g.length = segs.length := by
  induction segs generalizing g with
  | nil => unfold decodeSegs at h; cases h; rfl
  | cons seg rest ih =>
    unfold decodeSegs at h
    cases hp : pyIntHexL seg with
    | none => simp only [hp] at h; exact Option.noConfusion h
    | some v =>
      simp only [hp] at h
      cases hc : pyChr v with
      | none => simp only [hc] at h; exact Option.noConfusion h
      | some c =>
        simp only [hc] at h
        cases hd : decodeSegs rest with
        | none =>
          simp only [hd, Option.map_none] at h
          exact Option.noConfusion h
        | some cs =>
          simp only [hd, Option.map_some] at h
          cases h
          simp [ih cs hd]

theorem splitDash_ne_nil (l : List Char) : splitDash l ≠ [] := by
  cases l with
  | nil => simp [splitDash]
  | cons c rest =>
    unfold splitDash
    by_cases h : c = '-'
    · simp [h]
    · simp only [h, if_false]
      cases hs : splitDash rest with
      | nil => simp
      | cons s ss => simp

theorem hex_to_emoji_ne_nil (u : String) (g : List Nat)
    (h : hex_to_emoji u = some g) : g ≠ [] := by
  unfold hex_to_emoji at h
  have hlen := decodeSegs_length _ _ h
  intro hnil
  subst hnil
  simp only [List.length_nil] at hlen
  exact splitDash_ne_nil u.data (List.length_eq_zero.mp hlen.symm)

theorem eligibleGlyphs_ne_nil :
    ∀ (rest : List Entry) (seen : List (List Nat)),
    ∀ g ∈ eligibleGlyphs seen rest, g ≠ [] := by
  intro rest
  induction rest with
  | nil => intro seen; simp [eligibleGlyphs]
  | cons e rest ih =>
    intro seen g hg
    cases he : eligGlyph seen e with
    | none =>
      simp only [eligibleGlyphs, he] at hg
      exact ih seen g hg
    | some g2 =>
      simp only [eligibleGlyphs, he] at hg
      rcases List.mem_cons.mp hg with hx | hx
      · subst hx
        exact hex_to_emoji_ne_nil _ g (eligGlyph_some_decode seen e g he)
      · exact ih (g2 :: seen) g hx

/-! ## Keyword provenance -/

theorem char_toNat_ofNat (n : Nat) (h : n.isValidChar) :
    (Char.ofNat n).toNat = n := by
  rw [Char.ofNat, dif_pos h]
  simp [Char.ofNatAux, Char.toNat, UInt32.toNat]

theorem toLower_eq_ite (c : Char) :
    c.toLower = if c.toNat ≥ 65 ∧ c.toNat ≤ 90 then Char.ofNat (c.toNat + 32)
      else c := rfl

/-- `Char.toLower` only moves characters into the lowercase ASCII range,
so any character outside that range is hit only by itself:
`toLower c = d` forces `c = d`. -/
theorem toLower_fix {c d : Char} (hd : ¬(97 ≤ d.toNat ∧ d.toNat ≤ 122))
    (h : c.toLower = d) : c = d := by
  rw [toLower_eq_ite] at h
  by_cases hcond : c.toNat ≥ 65 ∧ c.toNat ≤ 90
  · exfalso
    rw [if_pos hcond] at h
    have hv : Nat.isValidChar (c.toNat + 32) := Or.inl (by omega)
    have h2 := congrArg Char.toNat h
    rw [char_toNat_ofNat (c.toNat + 32) hv] at h2
    exact hd ⟨by omega, by omega⟩
  · rw [if_neg hcond] at h
    exact h

/-- Cleaning keeps a leading colon a colon: no character other than `:`
is mapped to `:` by lowercasing and underscore replacement. -/
theorem cleanKw_keeps_colon (k : String)
    (h : pyStartsWith (cleanKw k) ":" = true) : pyStartsWith k ":" = true := by
  have hdat : (":" : String).data = [':'] := rfl
  unfold pyStartsWith at h ⊢
  rw [hdat] at h ⊢
  unfold cleanKw underscoreToSpace pyLower at h
  simp only [List.map_map] at h
  cases hk : k.data with
  | nil => rw [hk] at h; simp [leadsWith] at h
  | cons a rest =>
    rw [hk] at h
    simp only [List.map_cons, Function.comp] at h
    simp only [leadsWith, Bool.and_eq_true, beq_iff_eq] at h
    obtain ⟨h1, -⟩ := h
    by_cases hu : a.toLower = '_'
    · rw [if_pos hu] at h1
      exact absurd h1 (by decide)
    · rw [if_neg hu] at h1
      have ha : a = ':' := toLower_fix (by decide) h1.symm
      rw [ha]
      simp [leadsWith]

/-- Same statement for a leading semicolon. -/
theorem cleanKw_keeps_semicolon (k : String)
    (h : pyStartsWith (cleanKw k) ";" = true) : pyStartsWith k ";" = true := by
  have hdat : (";" : String).data = [';'] := rfl
  unfold pyStartsWith at h ⊢
  rw [hdat] at h ⊢
  unfold cleanKw underscoreToSpace pyLower at h
  simp only [List.map_map] at h
  cases hk : k.data with
  | nil => rw [hk] at h; simp [leadsWith] at h
  | cons a rest =>
    rw [hk] at h
    simp only [List.map_cons, Function.comp] at h
    simp only [leadsWith, Bool.and_eq_true, beq_iff_eq] at h
    obtain ⟨h1, -⟩ := h
    by_cases hu : a.toLower = '_'
    · rw [if_pos hu] at h1
      exact absurd h1 (by decide)
    · rw [if_neg hu] at h1
      have ha : a = ';' := toLower_fix (by decide) h1.symm
      rw [ha]
      simp [leadsWith]

/-- Every keyword produced by the short-name loop is either inherited
from the accumulator or is the cleaning of some short name. -/
theorem shortFold_mem (sn : List String) :
    ∀ (acc : List String × List String) (kw : String),
    kw ∈ (sn.foldl addShortName acc).1 →
    kw ∈ acc.1 ∨ ∃ s ∈ sn, cleanKw s = kw := by
  induction sn with
  | nil => intro acc kw h; exact Or.inl h
  | cons s sn ih =>
    intro acc kw h
    rw [List.foldl_cons] at h
    rcases ih (addShortName acc s) kw h with h1 | ⟨s2, hs2, hc⟩
    · unfold addShortName at h1
      by_cases hmem : cleanKw s ∈ acc.2
      · rw [if_pos hmem] at h1
        exact Or.inl h1
      · rw [if_neg hmem] at h1
        simp only [List.mem_append, List.mem_singleton] at h1
        rcases h1 with h1 | h1
        · exact Or.inl h1
        · exact Or.inr ⟨s, List.mem_cons_self s sn, h1.symm⟩
    · exact Or.inr ⟨s2, List.mem_cons_of_mem s hs2, hc⟩

/-- Every keyword produced by the emojilib loop is either inherited from
the accumulator or is the cleaning of some raw keyword of the loop input
that does not start with a colon or a semicolon. -/
theorem libFold_mem (tl : List String) :
    ∀ (acc : List String × List String) (kw : String),
    kw ∈ (tl.foldl addLibKw acc).1 →
    kw ∈ acc.1 ∨ ∃ k ∈ tl, cleanKw k = kw ∧
      pyStartsWith k ":" = false ∧ pyStartsWith k ";" = false := by
  induction tl with
  | nil => intro acc kw h; exact Or.inl h
  | cons k tl ih =>
    intro acc kw h
    rw [List.foldl_cons] at h
    rcases ih (addLibKw acc k) kw h with h1 | ⟨k2, hk2, hc⟩
    · unfold addLibKw at h1
      by_cases hcond : cleanKw k ∉ acc.2 ∧
          pyStartsWith k ":" = false ∧ pyStartsWith k ";" = false
      · rw [if_pos hcond] at h1
        simp only [List.mem_append, List.mem_singleton] at h1
        rcases h1 with h1 | h1
        · exact Or.inl h1
        · exact Or.inr ⟨k, List.mem_cons_self k tl, h1.symm, hcond.2.1, hcond.2.2⟩
      · rw [if_neg hcond] at h1
        exact Or.inl h1
    · exact Or.inr ⟨k2, List.mem_cons_of_mem k hk2, hc⟩

/-! ## Skip conditions -/

theorem eligGlyph_none_of_no_apple (e : Entry)
    (h : e.has_img_apple.getD false = false) :
    ∀ seen, eligGlyph seen e = none := by
  intro seen
  unfold eligGlyph
  rw [if_pos h]

theorem eligGlyph_none_of_skin (e : Entry)
    (h : skinToneHit (e.unified.getD "") = true) :
    ∀ seen, eligGlyph seen e = none := by
  intro seen
  unfold eligGlyph
  by_cases h1 : e.has_img_apple.getD false = false
  · rw [if_pos h1]
  · rw [if_neg h1, if_pos h]

theorem eligGlyph_none_of_decode_none (e : Entry)
    (h : hex_to_emoji (e.unified.getD "") = none) :
    ∀ seen, eligGlyph seen e = none := by
  intro seen
  unfold eligGlyph
  rw [h]
  split_ifs <;> rfl

theorem eligGlyph_some_intro (seen : List (List Nat)) (e : Entry) (g : List Nat)
    (ha : e.has_img_apple.getD false = true)
    (hs : skinToneHit (e.unified.getD "") = false)
    (hd : hex_to_emoji (e.unified.getD "") = some g) (hn : g ∉ seen) :
    eligGlyph seen e = some g := by
  unfold eligGlyph
  rw [if_neg (by rw [ha]; exact fun hc => Bool.noConfusion hc),
    if_neg (by rw [hs]; exact fun hc => Bool.noConfusion hc), hd]
  simp [hn]

/-- Failure of the decode is exactly a bad segment: some dash-separated
piece either fails hex parsing or encodes a value outside the code-point
range. -/
theorem decodeSegs_none_iff : ∀ segs : List (List Char),
    (decodeSegs segs = none ↔
      ∃ seg ∈ segs, pyIntHexL seg = none ∨
        ∃ v, pyIntHexL seg = some v ∧ pyChr v = none) := by
  intro segs
  induction segs with
  | nil => simp [decodeSegs]
  | cons seg rest ih =>
    unfold decodeSegs
    cases hp : pyIntHexL seg with
    | none =>
      simp only [hp]
      constructor
      · intro _; exact ⟨seg, List.mem_cons_self seg rest, Or.inl hp⟩
      · intro _; trivial
    | some v =>
      simp only [hp]
      cases hc : pyChr v with
      | none =>
        simp only [hc]
        constructor
        · intro _
          exact ⟨seg, List.mem_cons_self seg rest, Or.inr ⟨v, hp, hc⟩⟩
        · intro _; trivial
      | some c =>
        simp only [hc]
        rw [Option.map_eq_none']
        rw [ih]
        constructor
        · rintro ⟨s, hs, hPs⟩
          exact ⟨s, List.mem_cons_of_mem seg hs, hPs⟩
        · rintro ⟨s, hs, hPs⟩
          rcases List.mem_cons.mp hs with rfl | hs2
          · exfalso
            rcases hPs with h0 | ⟨v2, hv2, hc2⟩
            · rw [hp] at h0; exact Option.noConfusion h0
            · rw [hp] at hv2
              cases hv2
              rw [hc] at hc2
              exact Option.noConfusion hc2
          · exact ⟨s, hs2, hPs⟩

/-! ## Concrete records used in the claim instances -/

def eGrin : Entry :=
  ⟨some "1F600", some "GRINNING FACE", some ["grinning"],
   some "Smileys & Emotion", some 1, some true⟩

def grinLib : EmojiLib := [([0x1F600], ["grinning_face", "happy", "joy"])]

def eUpperSkin : Entry := ⟨some "1F3FB", some "SKIN", some [], none, none, some true⟩

def eLowerSkin : Entry := ⟨some "1f3fb", some "SKIN", some [], none, none, some true⟩

def eBadHex : Entry := ⟨some "ZZZZ", some "BAD", some [], none, none, some true⟩

def eNoApple : Entry := ⟨some "1F600", some "X", some [], none, none, none⟩

def eAppleFalse : Entry := ⟨some "1F600", some "X", some [], none, none, some false⟩

def eNoUnified : Entry := ⟨none, some "X", some [], none, none, some true⟩

def eFirst : Entry := ⟨some "1F600", some "FIRST", some [], none, none, some true⟩

def eSecond : Entry := ⟨some "1F600", some "SECOND", some [], none, none, some true⟩

/-! ## The claims -/

/-- C1: the single-record end-to-end scenario.  With the primary source
holding exactly the GRINNING FACE record and the secondary source
mapping its glyph to grinning_face / happy / joy, the pipeline returns
exactly one record: glyph U+1F600, name lowercased, keywords
grinning / happy / joy, category and sort order carried through. -/
theorem end_to_end_single_record :
    build_emoji_list [eGrin] grinLib =
      [⟨[0x1F600], "grinning face", ["grinning", "happy", "joy"],
        "Smileys & Emotion", 1⟩] := by decide

/-- C2: the keyword merger.  First conjunct: the concrete thumbs-up
instance, short names first and normalized, the first emojilib entry
dropped, the normalized duplicate suppressed, the rest appended in
order.  Second conjunct: any merged keyword starting with a colon or a
semicolon is the cleaning of a short name, so an emojilib mapping entry
such as a text emoticon never contributes one. -/
theorem keyword_merge_order_and_alias_exclusion :
    (build_keywords ["thumbs_up"] ["thumbs up sign", "like", "thumbs_up", "approve"]
      = ["thumbs up", "like", "approve"]) ∧
    ∀ (sn lks : List String) (kw : String), kw ∈ build_keywords sn lks →
      (pyStartsWith kw ":" = true ∨ pyStartsWith kw ";" = true) →
      ∃ s ∈ sn, cleanKw s = kw := by
  refine ⟨by decide, ?_⟩
  intro sn lks kw hmem hstart
  unfold build_keywords at hmem
  rcases libFold_mem _ _ _ hmem with h1 | ⟨k, _, hclean, hc1, hc2⟩
  · rcases shortFold_mem _ _ _ h1 with h2 | hsn
    · simp at h2
    · exact hsn
  · exfalso
    rcases hstart with hc | hc
    · rw [← hclean] at hc
      rw [cleanKw_keeps_colon k hc] at hc1
      exact Bool.noConfusion hc1
    · rw [← hclean] at hc
      rw [cleanKw_keeps_semicolon k hc] at hc2
      exact Bool.noConfusion hc2

theorem keyword_merge_order_and_alias_exclusion_witness :
    ∃ s ∈ [":D"], cleanKw s = ":d" :=
  keyword_merge_order_and_alias_exclusion.2 [":D"] ["x", "y"] ":d"
    (by decide) (Or.inl (by decide))

/-- C3 counterexample: the claim says a record whose codepoint sequence
contains a skin-tone modifier codepoint is excluded.  The record with
unified "1f3fb" (lowercase hex) decodes to exactly the modifier
U+1F3FB, yet the pipeline emits it, because line 104 tests the five
uppercase strings for substring occurrence, case-sensitively. -/
theorem skin_tone_claim_counterexample :
    hex_to_emoji "1f3fb" = some [0x1F3FB] ∧
    (0x1F3FB : Nat) ∈ [0x1F3FB, 0x1F3FC, 0x1F3FD, 0x1F3FE, 0x1F3FF] ∧
    build_emoji_list [eLowerSkin] [] =
      [⟨[0x1F3FB], "skin", [], "Other", 9999⟩] := by decide

/-- C3 (amended): the skin-tone criterion is a case-sensitive substring
test of the unified string against the five uppercase strings 1F3FB to
1F3FF.  When it fires the record contributes nothing, regardless of
has_img_apple; when it does not fire and the record is apple-rendered,
decodable and not a duplicate, the record is emitted. -/
theorem skin_tone_substring_criterion :
    ∀ (lib : EmojiLib) (st : List EmojiEntry × List (List Nat)) (e : Entry),
    (skinToneHit (e.unified.getD "") = true → processEntry lib st e = st) ∧
    (skinToneHit (e.unified.getD "") = false →
      e.has_img_apple.getD false = true →
      ∀ g, hex_to_emoji (e.unified.getD "") = some g → g ∉ st.2 →
      processEntry lib st e = (st.1 ++ [emittedEntry lib e g], g :: st.2)) := by
  intro lib st e
  constructor
  · intro h
    exact processEntry_skip lib st e (eligGlyph_none_of_skin e h st.2)
  · intro hs ha g hd hn
    exact processEntry_emit lib st e g (eligGlyph_some_intro st.2 e g ha hs hd hn)

theorem skin_tone_substring_criterion_witness :
    processEntry [] ([], []) eUpperSkin = ([], []) ∧
    processEntry [] ([], []) eLowerSkin =
      ([emittedEntry [] eLowerSkin [0x1F3FB]], [[0x1F3FB]]) := by
  constructor
  · exact (skin_tone_substring_criterion [] ([], []) eUpperSkin).1 (by decide)
  · exact (skin_tone_substring_criterion [] ([], []) eLowerSkin).2
      (by decide) (by decide) [0x1F3FB] (by decide) (by decide)

/-- C4: order preservation.  The glyph sequence of the output equals the
input sequence restricted to eligible records whose glyph was not
produced earlier, in the given order; the pipeline performs no sorting
of its own. -/
theorem output_glyph_order_preserved :
    ∀ (raw : List Entry) (lib : EmojiLib),
    (build_emoji_list raw lib).map EmojiEntry.emoji = eligibleGlyphs [] raw := by
  intro raw lib
  exact build_glyphs_eq raw lib

/-- C5: glyph uniqueness.  The glyphs of the output are pairwise
distinct, and when two source records decode to the same glyph only the
earlier one contributes (shown on a concrete duplicated pair). -/
theorem output_glyphs_unique :
    (∀ (raw : List Entry) (lib : EmojiLib),
      ((build_emoji_list raw lib).map EmojiEntry.emoji).Nodup) ∧
    build_emoji_list [eFirst, eSecond] [] =
      [⟨[0x1F600], "first", [], "Other", 9999⟩] := by
  constructor
  · intro raw lib
    rw [build_glyphs_eq]
    exact (eligibleGlyphs_nodup raw []).1
  · decide

/-- C6: a per-record decode failure never aborts the pipeline.  First
conjunct characterizes decode failure: some dash-separated segment
fails hex parsing or encodes a value outside the code-point range.
Second conjunct: inserting a record whose decode fails anywhere in the
raw data leaves the output unchanged - the record is skipped, appears
nowhere, and every other record is processed as before.  (The embedded
pipeline is a total function; the try/except of the script is the
Option match.) -/
theorem decode_failure_skips_record :
    (∀ u : String, hex_to_emoji u = none ↔
      ∃ seg ∈ splitDash u.data, pyIntHexL seg = none ∨
        ∃ v, pyIntHexL seg = some v ∧ pyChr v = none) ∧
    ∀ (xs ys : List Entry) (lib : EmojiLib) (e : Entry),
      hex_to_emoji (e.unified.getD "") = none →
      build_emoji_list (xs ++ e :: ys) lib = build_emoji_list (xs ++ ys) lib := by
  constructor
  · intro u
    unfold hex_to_emoji
    exact decodeSegs_none_iff (splitDash u.data)
  · intro xs ys lib e h
    exact build_insert_skip xs ys lib e (eligGlyph_none_of_decode_none e h)

theorem decode_failure_skips_record_witness :
    (hex_to_emoji "ZZZZ" = none ↔
      ∃ seg ∈ splitDash "ZZZZ".data, pyIntHexL seg = none ∨
        ∃ v, pyIntHexL seg = some v ∧ pyChr v = none) ∧
    build_emoji_list [eGrin, eBadHex] grinLib = build_emoji_list [eGrin] grinLib :=
  ⟨decode_failure_skips_record.1 "ZZZZ",
   decode_failure_skips_record.2 [eGrin] [] grinLib eBadHex (by decide)⟩

/-- C8: a record whose has_img_apple flag is false contributes no
output record, regardless of its other fields: inserting it anywhere
leaves the output unchanged. -/
theorem apple_flag_false_excluded :
    ∀ (xs ys : List Entry) (lib : EmojiLib) (e : Entry),
    e.has_img_apple = some false →
    build_emoji_list (xs ++ e :: ys) lib = build_emoji_list (xs ++ ys) lib := by
  intro xs ys lib e h
  exact build_insert_skip xs ys lib e
    (eligGlyph_none_of_no_apple e (by rw [h]; rfl))

theorem apple_flag_false_excluded_witness :
    build_emoji_list [eAppleFalse, eGrin] grinLib =
      build_emoji_list [eGrin] grinLib :=
  apple_flag_false_excluded [] [eGrin] grinLib eAppleFalse rfl

/-- C9: defaulting.  Whenever one loop iteration emits a record, an
absent category yields "Other" and an absent sort_order yields 9999,
while present values are carried through unchanged. -/
theorem missing_field_defaults :
    ∀ (lib : EmojiLib) (st : List EmojiEntry × List (List Nat))
      (e : Entry) (r : EmojiEntry),
    (processEntry lib st e).1 = st.1 ++ [r] →
    (e.category = none → r.category = "Other") ∧
    (∀ c, e.category = some c → r.category = c) ∧
    (e.sort_order = none → r.sortOrder = 9999) ∧
    (∀ n, e.sort_order = some n → r.sortOrder = n) := by
  intro lib st e r h
  rw [processEntry_eq] at h
  cases hg : eligGlyph st.2 e with
  | none =>
    exfalso
    rw [hg] at h
    have hlen := congrArg List.length h
    simp at hlen
  | some g =>
    rw [hg] at h
    simp only at h
    have hr : emittedEntry lib e g = r := by
      have h2 := List.append_cancel_left h
      exact (List.cons_eq_cons.mp h2).1
    subst hr
    refine ⟨?_, ?_, ?_, ?_⟩
    · intro hc; simp [emittedEntry, mkEmojiEntry, hc]
    · intro c hc; simp [emittedEntry, mkEmojiEntry, hc]
    · intro hs; simp [emittedEntry, mkEmojiEntry, hs]
    · intro n hs; simp [emittedEntry, mkEmojiEntry, hs]

theorem missing_field_defaults_witness :
    (⟨[0x1F600], "first", [], "Other", 9999⟩ : EmojiEntry).category = "Other" ∧
    (⟨[0x1F600], "first", [], "Other", 9999⟩ : EmojiEntry).sortOrder = 9999 := by
  have h := missing_field_defaults [] ([], []) eFirst
    ⟨[0x1F600], "first", [], "Other", 9999⟩ (by decide)
  exact ⟨h.1 rfl, h.2.2.1 rfl⟩

/-- C10: implicit handling of wholly absent fields.  A record without
has_img_apple is treated as not apple-rendered and contributes nothing;
a record without unified gets the empty string, whose decode fails, and
contributes nothing; and every output record has a nonempty glyph. -/
theorem implicit_missing_field_handling :
    (∀ (xs ys : List Entry) (lib : EmojiLib) (e : Entry),
      e.has_img_apple = none →
      build_emoji_list (xs ++ e :: ys) lib = build_emoji_list (xs ++ ys) lib) ∧
    (∀ (xs ys : List Entry) (lib : EmojiLib) (e : Entry),
      e.unified = none →
      build_emoji_list (xs ++ e :: ys) lib = build_emoji_list (xs ++ ys) lib) ∧
    (∀ (raw : List Entry) (lib : EmojiLib),
      ∀ r ∈ build_emoji_list raw lib, r.emoji ≠ []) := by
  refine ⟨?_, ?_, ?_⟩
  · intro xs ys lib e h
    exact build_insert_skip xs ys lib e
      (eligGlyph_none_of_no_apple e (by rw [h]; rfl))
  · intro xs ys lib e h
    refine build_insert_skip xs ys lib e
      (eligGlyph_none_of_decode_none e ?_)
    rw [h]
    decide
  · intro raw lib r hr
    have hmem : r.emoji ∈ (build_emoji_list raw lib).map EmojiEntry.emoji :=
      List.mem_map_of_mem EmojiEntry.emoji hr
    rw [build_glyphs_eq] at hmem
    exact eligibleGlyphs_ne_nil raw [] r.emoji hmem

theorem implicit_missing_field_handling_witness :
    build_emoji_list [eNoApple] [] = build_emoji_list [] [] ∧
    build_emoji_list [eNoUnified] [] = build_emoji_list [] [] ∧
    ([0x1F600] : List Nat) ≠ [] := by
  refine ⟨implicit_missing_field_handling.1 [] [] [] eNoApple rfl,
    implicit_missing_field_handling.2.1 [] [] [] eNoUnified rfl, ?_⟩
  exact implicit_missing_field_handling.2.2 [eFirst] []
    ⟨[0x1F600], "first", [], "Other", 9999⟩ (by decide)


/-! ## Decoder correctness on plain hex digit strings -/

/-- The numeric value of a hex digit string. -/
def hexValue (l : List Char) : Nat :=
  l.foldl (fun a c => 16 * a + hexDigVal c) 0

theorem hexDig_not_space {c : Char} (h : isHexDig c = true) :
    isPySpace c = false := by
  by_contra hs
  rw [Bool.not_eq_false] at hs
  unfold isPySpace at hs
  simp only [Bool.or_eq_true, decide_eq_true_eq] at hs
  rcases hs with ((((rfl | rfl) | rfl) | rfl) | rfl) | rfl <;>
    revert h <;> decide

theorem dropWhile_no (p : Char → Bool) (l : List Char)
    (h : ∀ c ∈ l, p c = false) : l.dropWhile p = l := by
  cases l with
  | nil => rfl
  | cons a t =>
    rw [List.dropWhile_cons, h a (List.mem_cons_self a t)]
    simp

theorem stripPySpaces_eq_self (l : List Char)
    (h : ∀ c ∈ l, isPySpace c = false) : stripPySpaces l = l := by
  unfold stripPySpaces
  rw [dropWhile_no _ l h,
    dropWhile_no _ l.reverse (fun c hc => h c (List.mem_reverse.mp hc)),
    List.reverse_reverse]

theorem parseDigitsGo_all_digits :
    ∀ (l : List Char) (acc : Nat), (∀ c ∈ l, isHexDig c = true) →
    parseDigitsGo false l acc =
      some (l.foldl (fun a c => 16 * a + hexDigVal c) acc) := by
  intro l
  induction l with
  | nil => intro acc _; rfl
  | cons c rest ih =>
    intro acc h
    have hc := h c (List.mem_cons_self c rest)
    have hne : ¬ c = '_' := by rintro rfl; revert hc; decide
    have hstep : parseDigitsGo false (c :: rest) acc =
        if c = '_' then (if (false : Bool) then none else parseDigitsGo true rest acc)
        else if isHexDig c then parseDigitsGo false rest (16 * acc + hexDigVal c)
        else none := rfl
    rw [hstep, if_neg hne, if_pos hc, List.foldl_cons]
    exact ih _ (fun x hx => h x (List.mem_cons_of_mem c hx))

theorem parseHexNum_all_digits (l : List Char) (hne : l ≠ [])
    (h : ∀ c ∈ l, isHexDig c = true) : parseHexNum l = some (hexValue l) := by
  cases l with
  | nil => exact absurd rfl hne
  | cons c rest =>
    have hstep : parseHexNum (c :: rest) =
        if isHexDig c then parseDigitsGo false rest (hexDigVal c) else none := rfl
    rw [hstep, if_pos (h c (List.mem_cons_self c rest))]
    unfold hexValue
    rw [List.foldl_cons,
      parseDigitsGo_all_digits rest _ (fun x hx => h x (List.mem_cons_of_mem c hx))]
    norm_num

theorem parseHexBody_all_digits (l : List Char)
    (h : ∀ c ∈ l, isHexDig c = true) : parseHexBody l = parseHexNum l := by
  cases l with
  | nil => rfl
  | cons c1 t =>
    cases t with
    | nil => rfl
    | cons c2 t2 =>
      have hc2 : isHexDig c2 = true :=
        h c2 (List.mem_cons_of_mem c1 (List.mem_cons_self c2 t2))
      have hcx : ¬(c1 = '0' ∧ (c2 = 'x' ∨ c2 = 'X')) := by
        rintro ⟨-, rfl | rfl⟩ <;> revert hc2 <;> decide
      simp only [parseHexBody]
      rw [if_neg hcx]

theorem pyIntHexL_all_digits (l : List Char) (hne : l ≠ [])
    (h : ∀ c ∈ l, isHexDig c = true) :
    pyIntHexL l = some ((hexValue l : Nat) : Int) := by
  unfold pyIntHexL
  rw [stripPySpaces_eq_self l (fun c hc => hexDig_not_space (h c hc))]
  cases l with
  | nil => exact absurd rfl hne
  | cons c rest =>
    have hc := h c (List.mem_cons_self c rest)
    have hplus : ¬ c = '+' := by rintro rfl; revert hc; decide
    have hminus : ¬ c = '-' := by rintro rfl; revert hc; decide
    have hstep : parseSignedHex (c :: rest) =
        if c = '+' then (parseHexBody rest).map (fun n => (n : Int))
        else if c = '-' then (parseHexBody rest).map (fun n => -(n : Int))
        else (parseHexBody (c :: rest)).map (fun n => (n : Int)) := rfl
    rw [hstep, if_neg hplus, if_neg hminus,
      parseHexBody_all_digits _ h, parseHexNum_all_digits _ hne h]
    rfl

theorem splitDash_no_dash (l : List Char) (h : '-' ∉ l) : splitDash l = [l] := by
  induction l with
  | nil => rfl
  | cons c rest ih =>
    have hc : ¬ c = '-' := by
      intro hc2; subst hc2; exact h (List.mem_cons_self _ _)
    unfold splitDash
    rw [if_neg hc, ih (fun hm => h (List.mem_cons_of_mem c hm))]

theorem splitDash_pair (l1 l2 : List Char) (h1 : '-' ∉ l1) (h2 : '-' ∉ l2) :
    splitDash (l1 ++ '-' :: l2) = [l1, l2] := by
  induction l1 with
  | nil =>
    simp only [List.nil_append]
    unfold splitDash
    rw [if_pos rfl, splitDash_no_dash l2 h2]
  | cons c rest ih =>
    have hc : ¬ c = '-' := by
      intro hc2; subst hc2; exact h1 (List.mem_cons_self _ _)
    simp only [List.cons_append]
    unfold splitDash
    rw [if_neg hc, ih (fun hm => h1 (List.mem_cons_of_mem c hm))]

theorem decodeSegs_cons_good (seg : List Char) (rest : List (List Char)) (v : Nat)
    (hp : pyIntHexL seg = some ((v : Nat) : Int)) (hv : v ≤ 0x10FFFF) :
    decodeSegs (seg :: rest) = (decodeSegs rest).map (fun cs => v :: cs) := by
  have hchr : pyChr ((v : Nat) : Int) = some v := by
    unfold pyChr
    rw [if_pos ⟨Int.natCast_nonneg _, by exact_mod_cast hv⟩]
    simp
  simp only [decodeSegs, hp, hchr]

theorem hex_to_emoji_single (s : String) (hne : s.data ≠ [])
    (hdigs : ∀ c ∈ s.data, isHexDig c = true)
    (hrange : hexValue s.data ≤ 0x10FFFF) :
    hex_to_emoji s = some [hexValue s.data] := by
  unfold hex_to_emoji
  rw [splitDash_no_dash s.data (fun hm => absurd (hdigs '-' hm) (by decide)),
    decodeSegs_cons_good s.data [] (hexValue s.data)
      (pyIntHexL_all_digits s.data hne hdigs) hrange]
  simp [decodeSegs]

/-- C7: decoder correctness.  A single valid hex codepoint decodes to
the one-element glyph with that value; a dash-joined pair of valid hex
codepoints decodes to the two-element glyph, in order. -/
theorem hex_decode_correct :
    (∀ s : String, s.data ≠ [] → (∀ c ∈ s.data, isHexDig c = true) →
      hexValue s.data ≤ 0x10FFFF →
      hex_to_emoji s = some [hexValue s.data]) ∧
    (∀ s1 s2 : String, s1.data ≠ [] → s2.data ≠ [] →
      (∀ c ∈ s1.data, isHexDig c = true) → (∀ c ∈ s2.data, isHexDig c = true) →
      hexValue s1.data ≤ 0x10FFFF → hexValue s2.data ≤ 0x10FFFF →
      hex_to_emoji (s1 ++ "-" ++ s2) =
        some [hexValue s1.data, hexValue s2.data]) := by
  constructor
  · exact hex_to_emoji_single
  · intro s1 s2 hne1 hne2 hd1 hd2 hr1 hr2
    unfold hex_to_emoji
    have hdata : (s1 ++ "-" ++ s2).data = s1.data ++ '-' :: s2.data := by
      rw [String.data_append, String.data_append]
      simp
    rw [hdata, splitDash_pair s1.data s2.data
        (fun hm => absurd (hd1 '-' hm) (by decide))
        (fun hm => absurd (hd2 '-' hm) (by decide)),
      decodeSegs_cons_good s1.data [s2.data] (hexValue s1.data)
        (pyIntHexL_all_digits s1.data hne1 hd1) hr1,
      decodeSegs_cons_good s2.data [] (hexValue s2.data)
        (pyIntHexL_all_digits s2.data hne2 hd2) hr2]
    simp [decodeSegs]

theorem hex_decode_correct_witness :
    hex_to_emoji "1F600" = some [128512] ∧
    hex_to_emoji ("1F1FA" ++ "-" ++ "1F1F8") = some [127482, 127480] := by
  constructor
  · have h := hex_decode_correct.1 "1F600" (by decide) (by decide) (by decide)
    rw [h]
    decide
  · have h := hex_decode_correct.2 "1F1FA" "1F1F8" (by decide) (by decide)
      (by decide) (by decide) (by decide) (by decide)
    rw [h]
    decide
